import Mathlib

/-!
Verification of the onyxowl privacy filter: a shallow embedding of the
reversible masking/demasking core (`src/privacy_filter/core.py`), the
GLiNER engine deduplication (`src/privacy_filter/gliner_engine.py`) and the
NATS session store with KDF encryption (`src/privacy_filter/nats_store.py`).
Python strings are modelled as `List Char`; Python dicts (which preserve
insertion order) as association lists with dict-update semantics; machine
integers as `Nat`/`Int`; confidence scores as `ℚ`.
-/
abbrev Str := List Char

/-- Fuel-driven worker for `natChars`: structural recursion on the fuel so
that closed terms evaluate inside the kernel.  The fuel always dominates
the rendered number, so it is never exhausted. -/
def natCharsGo : Nat → Nat → List Char
  | 0, n => [Nat.digitChar n]
  | f + 1, n =>
    if n < 10 then [Nat.digitChar n]
    else natCharsGo f (n / 10) ++ [Nat.digitChar (n % 10)]

/-- Decimal digit characters of a natural number, most significant digit
first: the rendering produced by Python f-string interpolation of a
nonnegative `int` (as in `f"<{entity_type}_{index}>"`). -/
def natChars (n : Nat) : List Char := natCharsGo n n

/-- Boolean test that `pat` is a prefix of the second list (Python
`str.startswith`, used to implement substring search and replacement). -/
def startsWithL : Str → Str → Bool
  | [], _ => true
  | _ :: _, [] => false
  | c :: p, d :: s => c == d && startsWithL p s

/-- Python substring containment `pat in s`. -/
def occursIn (pat : Str) : Str → Bool
  | [] => startsWithL pat []
  | c :: rest => startsWithL pat (c :: rest) || occursIn pat rest

/-- Fuel-driven worker for `replaceAll`: structural recursion on the fuel
so closed terms evaluate inside the kernel.  The fuel dominates the length
of the scanned text (each step consumes at least one character), so it is
never exhausted. -/
def replaceAllGo (old new : Str) : Nat → Str → Str
  | _, [] => []
  | 0, c :: rest => c :: rest
  | f + 1, c :: rest =>
    if old ≠ [] ∧ startsWithL old (c :: rest) = true then
      new ++ replaceAllGo old new f ((c :: rest).drop old.length)
    else
      c :: replaceAllGo old new f rest

/-- Python `s.replace(old, new)`: replace every non-overlapping occurrence
of `old`, scanning left to right.  (For `old = []` Python would interleave
`new` everywhere; that case never arises here since every pattern used is a
nonempty placeholder token, and we leave the text unchanged.) -/
def replaceAll (old new : Str) (s : Str) : Str := replaceAllGo old new s.length s

/-- Python dict lookup `m.get(k)` on an insertion-ordered dict modelled as
an association list. -/
def dictGet {V : Type} (m : List (Str × V)) (k : Str) : Option V :=
  (m.find? (fun p => p.1 == k)).map (fun p => p.2)

/-- Python dict assignment `m[k] = v`: updates the value in place if the
key is present (keeping its original insertion position), otherwise appends
the new binding at the end. -/
def dictInsert {V : Type} (m : List (Str × V)) (k : Str) (v : V) : List (Str × V) :=
  if m.any (fun p => p.1 == k) then
    m.map (fun p => if p.1 == k then (k, v) else p)
  else m ++ [(k, v)]

/-- One detected sensitive span: the entity-record dict shape produced by
the detection engines (`entity_type`, `start`, `end`, `score`, `text`).
The `end` key is named `stop` because `end` is a Lean keyword. -/
structure Entity where
  entity_type : Str
  start : Nat
  stop : Nat
  score : ℚ
  text : Str
deriving DecidableEq, Repr

/-- Stable insertion of an entity into a sorted list: keeps `a` before the
first element `b` with `le a b`. -/
def insertSorted (le : Entity → Entity → Bool) (a : Entity) : List Entity → List Entity
  | [] => [a]
  | b :: l => if le a b then a :: b :: l else b :: insertSorted le a l

/-- Stable sort with respect to a total boolean preorder.  Python's
`list.sort`/`sorted` are stable, and a stable sort's output is uniquely
determined by the key order, so insertion sort is an exact model. -/
def sortByLe (le : Entity → Entity → Bool) : List Entity → List Entity
  | [] => []
  | a :: l => insertSorted le a (sortByLe le l)

/-- Ascending `(start, end)` lexicographic key used by
`_deduplicate_entities` (`sorted(entities, key=lambda x: (x.start, x.end))`). -/
def ascStartStop (a b : Entity) : Bool :=
  decide (a.start < b.start) || (a.start == b.start && decide (a.stop ≤ b.stop))

/-- Descending start key used by `mask`
(`detected_entities.sort(key=lambda x: x.start, reverse=True)`). -/
def descStart (a b : Entity) : Bool :=
  decide (b.start ≤ a.start)

/-- Python `max(l, key=lambda x: x.score)` over `e :: l`: the first
element with maximal score (later elements replace the running maximum
only when strictly greater). -/
def pyMaxScore (e : Entity) (l : List Entity) : Entity :=
  l.foldl (fun best x => if best.score < x.score then x else best) e

/-- The overlap test used inside `_deduplicate_entities`:
`e.start <= entity.start < e.end or entity.start <= e.start < entity.end`. -/
def overlapsB (x e : Entity) : Bool :=
  (decide (x.start ≤ e.start) && decide (e.start < x.stop)) ||
  (decide (e.start ≤ x.start) && decide (x.start < e.stop))

/-- Main loop of `GLiNERPresidioEngine._deduplicate_entities`: walks the
sorted candidates keeping `skip_until`, recomputing the overlapping set
against the full sorted list `all` on every iteration, appending the
highest-confidence overlapping candidate when it is not already kept. -/
def dedupGo (all : List Entity) : List Entity → List Entity → Int → List Entity
  | [], dedup, _ => dedup
  | e :: rest, dedup, skipUntil =>
    if (e.start : Int) < skipUntil then
      dedupGo all rest dedup skipUntil
    else
      match all.filter (fun x => overlapsB x e) with
      | [] => dedupGo all rest (dedup ++ [e]) (e.stop : Int)
      | o :: os =>
        let best := pyMaxScore o os
        if dedup.contains best then dedupGo all rest dedup skipUntil
        else dedupGo all rest (dedup ++ [best]) (best.stop : Int)

/-- `GLiNERPresidioEngine._deduplicate_entities`. -/
def deduplicate_entities (entities : List Entity) : List Entity :=
  if entities = [] then []
  else
    let sorted := sortByLe ascStartStop entities
    dedupGo sorted sorted [] (-1)

/-- `PrivacyFilter._generate_token`: `f"<{entity_type}_{index}>"`. -/
def generate_token (entity_type : Str) (index : Nat) : Str :=
  '<' :: (entity_type ++ '_' :: (natChars index ++ ['>']))

/-- Result of `PrivacyFilter.mask` (the `MaskingResult` dataclass).  The
random `uuid4` session id is modelled as an opaque natural number. -/
structure MaskingResult where
  masked_text : Str
  token_map : List (Str × Str)
  entities_found : List Entity
  session_id : Nat
deriving Repr

/-- Result of `PrivacyFilter.demask` (the `DemaskingResult` dataclass). -/
structure DemaskingResult where
  original_text : Str
  entities_restored : Nat
deriving DecidableEq, Repr

/-- The entity filter in `mask`: `if entities_to_mask:` is Python
truthiness, so `None` and the empty list both skip the filter. -/
def pyFilterEntities (detected : List Entity) : Option (List Str) → List Entity
  | none => detected
  | some l => if l = [] then detected else detected.filter (fun e => l.contains e.entity_type)

/-- Replacement loop of `mask`: for each entity (already sorted by
descending start), bump the per-type counter, generate the token, record
`token -> original_value` in the token map and splice the token over the
span `[start, end)` of the evolving text. -/
def maskLoop : List Entity → Str → (Str → Nat) → List (Str × Str) → Str × List (Str × Str)
  | [], masked, _, tm => (masked, tm)
  | e :: rest, masked, counts, tm =>
    let c := counts e.entity_type + 1
    let tok := generate_token e.entity_type c
    maskLoop rest (masked.take e.start ++ tok ++ masked.drop e.stop)
      (fun s => if s = e.entity_type then c else counts s) (dictInsert tm tok e.text)

/-- The in-memory session dict of `PrivacyFilter` (`self.sessions`),
keyed by the opaque session id. -/
abbrev Sessions := List (Nat × List (Str × Str))

/-- Lookup in the session dict (`self.sessions.get(session_id)`). -/
def sessGet (st : Sessions) (sid : Nat) : Option (List (Str × Str)) :=
  (st.find? (fun p => p.1 == sid)).map (fun p => p.2)

/-- Session dict assignment `self.sessions[session_id] = token_map`. -/
def sessInsert (st : Sessions) (sid : Nat) (tm : List (Str × Str)) : Sessions :=
  if st.any (fun p => p.1 == sid) then
    st.map (fun p => if p.1 == sid then (sid, tm) else p)
  else st ++ [(sid, tm)]

/-- `PrivacyFilter.mask`.  Entity detection is an external collaborator
(GLiNER/Presidio ML models), so the detection outcome `detected` is a
parameter; `session_id` stands for the freshly drawn `uuid4`.  Returns the
updated session store together with the `MaskingResult`: note that the
source sorts the (filtered) detection list in place, so `entities_found`
is that same sorted list. -/
def mask (st : Sessions) (session_id : Nat) (text : Str) (detected : List Entity)
    (entities_to_mask : Option (List Str)) : Sessions × MaskingResult :=
  let filtered := pyFilterEntities detected entities_to_mask
  let sorted := sortByLe descStart filtered
  let r := maskLoop sorted text (fun _ => 0) []
  (sessInsert st session_id r.2, ⟨r.1, r.2, sorted, session_id⟩)

/-- Restoration loop of `demask`: for each `(token, original_value)` in
insertion order, if the token occurs in the current text replace all its
occurrences and count one restored entity, else silently skip it. -/
def demaskLoop : List (Str × Str) → Str → Nat → Str × Nat
  | [], text, n => (text, n)
  | (tok, v) :: rest, text, n =>
    if occursIn tok text then demaskLoop rest (replaceAll tok v text) (n + 1)
    else demaskLoop rest text n

/-- `PrivacyFilter.demask`: uses the direct token map when given, else
fetches the session's map (defaulting to empty), and raises `ValueError`
(modelled as `Except.error`) when neither argument is supplied. -/
def demask (st : Sessions) (masked_text : Str) (session_id : Option Nat)
    (token_map : Option (List (Str × Str))) : Except Unit DemaskingResult :=
  match token_map with
  | some tm =>
    let r := demaskLoop tm masked_text 0
    .ok ⟨r.1, r.2⟩
  | none =>
    match session_id with
    | none => .error ()
    | some sid =>
      let r := demaskLoop ((sessGet st sid).getD []) masked_text 0
      .ok ⟨r.1, r.2⟩

/-- State-passing wrapper for `demask`: the method reads `self.sessions`
but never assigns to it, so the faithful state-passing translation returns
the store unchanged. -/
def demaskOp (st : Sessions) (masked_text : Str) (session_id : Option Nat)
    (token_map : Option (List (Str × Str))) : Sessions × Except Unit DemaskingResult :=
  (st, demask st masked_text session_id token_map)

/-- Numeric value of a digit character. -/
def digVal (c : Char) : Nat := c.toNat - 48

/-- Value of a most-significant-first digit string. -/
def valOf (l : List Char) : Nat := l.foldl (fun a c => 10 * a + digVal c) 0

/-! ### Bracket-free texts and the shape of placeholder tokens -/
/-- A character list containing neither the opening nor the closing token
delimiter. -/
def BFree (s : Str) : Prop := ∀ c ∈ s, c ≠ '<' ∧ c ≠ '>'

/-- The shape every generated placeholder token has: an opening delimiter,
a delimiter-free body, a closing delimiter. -/
def TokenShape (u : Str) : Prop := ∃ w, u = '<' :: (w ++ ['>']) ∧ BFree w

/-! ### The structure of the masked text and its restoration -/
/-- Shape of the masked text produced by the replacement loop on a
descending entity list: the outermost (largest-start) entity splits the
text first and each later entity operates inside the untouched prefix. -/
def descAssemble (T : Str) : List (Entity × Str) → Str
  | [] => T
  | (e, u) :: rest => descAssemble (T.take e.start) rest ++ u ++ T.drop e.stop

/-- Well-formedness of a descending entity/token list relative to the text
it was detected in: spans are valid, each later span lies strictly left of
the current one (expressed by recursing into the untouched prefix), every
token is well shaped and no token recurs later in the list. -/
def DescOK (T : Str) : List (Entity × Str) → Prop
  | [] => True
  | (e, u) :: rest =>
    e.start < e.stop ∧ e.stop ≤ T.length ∧
    e.text = (T.drop e.start).take (e.stop - e.start) ∧
    TokenShape u ∧ (∀ p ∈ rest, p.2 ≠ u) ∧ DescOK (T.take e.start) rest

/-- The token map built by the replacement loop, in insertion order. -/
def tokenPairsMap : List (Entity × Str) → List (Str × Str)
  | [] => []
  | (e, u) :: rest => (u, e.text) :: tokenPairsMap rest

/-! ### Decomposition of the replacement loop -/
/-- The entity/token pairing performed by the replacement loop: walks the
(descending) entity list threading the per-type counters. -/
def assignTokens : List Entity → (Str → Nat) → List (Entity × Str)
  | [], _ => []
  | e :: rest, counts =>
    (e, generate_token e.entity_type (counts e.entity_type + 1)) ::
      assignTokens rest
        (fun s => if s = e.entity_type then counts e.entity_type + 1 else counts s)

/-- Text component of the replacement loop. -/
def spliceAll : List (Entity × Str) → Str → Str
  | [], t => t
  | (e, u) :: rest, t => spliceAll rest (t.take e.start ++ u ++ t.drop e.stop)

/-- Token-map component of the replacement loop. -/
def tmFold : List (Entity × Str) → List (Str × Str) → List (Str × Str)
  | [], tm => tm
  | (e, u) :: rest, tm => tmFold rest (dictInsert tm u e.text)

/-! ### From claim-level hypotheses to the assembled masked text -/
/-- Claim-level validity of a detected entity relative to the input text:
valid half-open span within the text, captured `text` field equal to the
spanned slice, and a delimiter-free entity type. -/
def ValidIn (T : Str) (e : Entity) : Prop :=
  e.start < e.stop ∧ e.stop ≤ T.length ∧
  e.text = (T.drop e.start).take (e.stop - e.start) ∧ BFree e.entity_type

/-- Pairwise non-overlap of half-open spans, in either order. -/
def Separated (l : List Entity) : Prop :=
  l.Pairwise (fun a b => a.stop ≤ b.start ∨ b.stop ≤ a.start)

deriving instance DecidableEq for Except

/-! ### Concrete inputs for the claims about the masking core -/
/-- The rational `0.99`, given in normal form so that kernel evaluation of
score comparisons succeeds. -/
def q99 : ℚ := ⟨99, 100, by decide, by decide⟩

/-- The rational `0.9` in normal form. -/
def q90 : ℚ := ⟨9, 10, by decide, by decide⟩

/-- The rational `0.5` in normal form. -/
def q50 : ℚ := ⟨1, 2, by decide, by decide⟩

/-- A text that already contains the literal of the placeholder token that
`mask` will generate for its single detected email. -/
def c1T : Str := "see <EMAIL_ADDRESS_1> and a@b.c".toList

/-- The single detected email span of `c1T`. -/
def c1E : Entity := ⟨"EMAIL_ADDRESS".toList, 26, 31, q90, "a@b.c".toList⟩

/-- A delimiter-free text with one detected email span. -/
def c1wT : Str := "Email me at john@x.com".toList

/-- The detected email span of `c1wT`. -/
def c1wE : Entity := ⟨"EMAIL_ADDRESS".toList, 12, 22, q90, "john@x.com".toList⟩

/-- Candidate entity `[0,10)` with the highest confidence. -/
def c2A : Entity := ⟨"PERSON".toList, 0, 10, q99, "aaaaaaaaaa".toList⟩

/-- Candidate entity `[5,15)` bridging the other two. -/
def c2C : Entity := ⟨"PHONE_NUMBER".toList, 5, 15, q90, "cccccccccc".toList⟩

/-- Candidate entity `[10,20)` with the lowest confidence. -/
def c2B : Entity := ⟨"EMAIL_ADDRESS".toList, 10, 20, q50, "bbbbbbbbbb".toList⟩

/-- The two-email scenario text of the specification. -/
def c3T : Str := "Email alice@example.com and bob@example.com".toList

/-- The leftmost detected email of `c3T`. -/
def c3Alice : Entity := ⟨"EMAIL_ADDRESS".toList, 6, 23, q90, "alice@example.com".toList⟩

/-- The rightmost detected email of `c3T`. -/
def c3Bob : Entity := ⟨"EMAIL_ADDRESS".toList, 28, 43, q90, "bob@example.com".toList⟩

/-- A phone entity filtered away by `entities_to_mask` in the C4 scenario. -/
def c4Phone : Entity := ⟨"PHONE_NUMBER".toList, 0, 3, q50, "000".toList⟩

/-- The rightmost detected email of the C4 scenario. -/
def c4Email1 : Entity := ⟨"EMAIL_ADDRESS".toList, 8, 11, q90, "a@b".toList⟩

/-- The leftmost detected email of the C4 scenario, listed after the
rightmost one in the detection output. -/
def c4Email2 : Entity := ⟨"EMAIL_ADDRESS".toList, 4, 7, q90, "c@d".toList⟩

instance (s : Str) : Decidable (BFree s) := by
  unfold BFree
  infer_instance

instance (T : Str) (e : Entity) : Decidable (ValidIn T e) := by
  unfold ValidIn
  infer_instance

instance (l : List Entity) : Decidable (Separated l) := by
  unfold Separated
  infer_instance

/-! ### KDF encryption and the NATS session store (`nats_store.py`) -/
/-- A derived encryption key, determined by the master secret and the time
period.  Modelled from the spec: HKDF is an external collaborator (spec §1)
consumed as a black box; an ideal KDF derives distinct keys from distinct
`(master secret, period)` pairs, which the pair itself represents. -/
abbrev DerivedKey := String × Int

/-- Byte strings as far as the session store is concerned.  Modelled from
the spec: the AEAD cipher (Fernet) is an external collaborator consumed as
a black box; an ideal AEAD token records the exact key it was sealed under
and authenticates only under that key. -/
inductive FBytes (α : Type) where
  | raw : α → FBytes α
  | sealed : DerivedKey → FBytes α → FBytes α
deriving DecidableEq

/-- Ideal `Fernet(key).decrypt`: succeeds exactly when the token was
sealed under the same derived key; raw bytes and foreign keys raise
`InvalidToken`, modelled as `none`. -/
def fernetDecrypt {α : Type} (k : DerivedKey) : FBytes α → Option (FBytes α)
  | .raw _ => none
  | .sealed k' b => if k' = k then some b else none

/-- Error taxonomy of `KDFEncryption`: the `RuntimeError` when no master
key is configured, and the `ValueError` raised when every key/period
attempt fails to authenticate. -/
inductive KDFErr where
  | notEnabled
  | decryptionFailure
deriving DecidableEq

/-- Configuration of `KDFEncryption`: current and optional previous master
secrets plus the rotation period in seconds (default 86400). -/
structure KDFEncryption where
  master_key : Option String
  master_key_previous : Option String
  rotation_period : Nat
deriving DecidableEq

/-- `KDFEncryption.is_enabled`: a master key is configured. -/
def KDFEncryption.is_enabled (e : KDFEncryption) : Bool := e.master_key.isSome

/-- `KDFEncryption._get_current_period`: `int(time.time() // rotation)`,
with the wall clock passed explicitly as nonnegative whole seconds. -/
def KDFEncryption.current_period (e : KDFEncryption) (now : Nat) : Int :=
  ((now / e.rotation_period : Nat) : Int)

/-- `KDFEncryption.encrypt`: seals under the current period's key derived
from the current master secret, or raises `RuntimeError` when disabled. -/
def KDFEncryption.encrypt {α : Type} (e : KDFEncryption) (now : Nat)
    (data : FBytes α) : Except KDFErr (FBytes α) :=
  match e.master_key with
  | none => Except.error KDFErr.notEnabled
  | some mkey => Except.ok (FBytes.sealed (mkey, e.current_period now) data)

/-- The ordered key/period attempt list built by `KDFEncryption.decrypt`:
current secret with current then previous period, then — only when a
previous secret is configured — the previous secret with current then
previous period. -/
def KDFEncryption.attempts (e : KDFEncryption) (mk : String) (now : Nat) :
    List DerivedKey :=
  (mk, e.current_period now) :: (mk, e.current_period now - 1) ::
    (match e.master_key_previous with
     | some pk => [(pk, e.current_period now), (pk, e.current_period now - 1)]
     | none => [])

/-- The `for ... try/except InvalidToken` loop of `KDFEncryption.decrypt`:
the first attempt that authenticates wins. -/
def decryptLoop {α : Type} : List DerivedKey → FBytes α → Option (FBytes α)
  | [], _ => none
  | k :: rest, d =>
    match fernetDecrypt k d with
    | some x => some x
    | none => decryptLoop rest d

/-- `KDFEncryption.decrypt`: tries the attempt list in order; when every
attempt fails it raises the `ValueError` (`decryptionFailure`) distinct
from the not-enabled `RuntimeError`. -/
def KDFEncryption.decrypt {α : Type} (e : KDFEncryption) (now : Nat)
    (d : FBytes α) : Except KDFErr (FBytes α) :=
  match e.master_key with
  | none => Except.error KDFErr.notEnabled
  | some mkey =>
    match decryptLoop (e.attempts mkey now) d with
    | some x => Except.ok x
    | none => Except.error KDFErr.decryptionFailure

/-- Token maps at the store layer (deserialized JSON dicts). -/
abbrev TMn := List (String × String)

/-- The KV bucket contents: key `"session:" + id` mapping to stored
bytes. -/
abbrev KVBucket := List (String × FBytes TMn)

/-- KV lookup (`await self._kv.get(key)`), with `none` modelling
`KeyNotFoundError` (absent or TTL-expired key). -/
def kvGet (kv : KVBucket) (k : String) : Option (FBytes TMn) :=
  (kv.find? (fun p => p.1 == k)).map (fun p => p.2)

/-- `json.dumps`/`json.loads` of a token map round-trip through plaintext
bytes; a Fernet token is not valid JSON (that exception is unreachable on
the modelled paths, where encrypted values are always decrypted first). -/
def jsonLoads : FBytes TMn → Option TMn
  | .raw tm => some tm
  | .sealed _ _ => none

/-- `NATSSessionStore.get_session`: returns the stored token map, and
returns `None` both when the key is absent or expired and when decryption
fails — the decryption `ValueError` is caught, logged and swallowed. -/
def get_session (e : KDFEncryption) (now : Nat) (kv : KVBucket) (sid : String) :
    Option TMn :=
  match kvGet kv ("session:" ++ sid) with
  | none => none
  | some v =>
    if e.is_enabled then
      match e.decrypt now v with
      | .error _ => none
      | .ok v' => jsonLoads v'
    else jsonLoads v

/-- `NATSSessionStore.resolve_tokens`: `if not token_map: return {}`
treats a missing session and an empty stored map alike; otherwise each
requested token resolves to its stored value, or to itself when absent
(`token_map.get(token, token)`).  The Python dict comprehension is
modelled as an association list in request order; duplicate requests
collapse in the dict but carry equal values. -/
def resolve_tokens (e : KDFEncryption) (now : Nat) (kv : KVBucket) (sid : String)
    (tokens : List String) : List (String × String) :=
  match get_session e now kv sid with
  | none => []
  | some tm =>
    if tm = [] then []
    else tokens.map (fun t =>
      (t, ((tm.find? (fun p => p.1 == t)).map (fun p => p.2)).getD t))

/-! ### Concrete store contents for the claims about the NATS layer -/
/-- Encryption enabled under master secret `"A"`, no previous secret. -/
def c9E : KDFEncryption := ⟨some "A", none, 86400⟩

/-- A bucket holding one session whose ciphertext was sealed under an
unrelated master secret `"B"`. -/
def c9KV : KVBucket := [("session:s1", FBytes.sealed ("B", 0) (FBytes.raw []))]

/-- Encryption disabled (no master key configured). -/
def c7E : KDFEncryption := ⟨none, none, 86400⟩

/-- A bucket holding one existing session whose stored token map is empty
(the store_session result of a mask call that found no entities). -/
def c7KV : KVBucket := [("session:s1", FBytes.raw ([] : TMn))]

/-- A bucket holding one session with a nonempty token map. -/
def c7KV2 : KVBucket := [("session:s2", FBytes.raw ([("<A_1>", "x")] : TMn))]

/-- Encryption enabled under master secret `"k"`, default rotation. -/
def c8E : KDFEncryption := ⟨some "k", none, 86400⟩

/-! ### Properties of the decimal rendering and of token generation -/
theorem natCharsGo_small (n : Nat) (h : n < 10) : ∀ f, natCharsGo f n = [Nat.digitChar n] := by
  intro f
  cases f with
  | zero => rfl
  | succ g => simp only [natCharsGo, if_pos h]

theorem natCharsGo_eq : ∀ (f n : Nat), n ≤ f → natCharsGo f n = natChars n := by
  intro f
  induction f using Nat.strong_induction_on with
  | _ f ih =>
    intro n hf
    by_cases h : n < 10
    · have hr : natChars n = [Nat.digitChar n] := natCharsGo_small n h n
      rw [hr, natCharsGo_small n h f]
    · cases f with
      | zero => omega
      | succ g =>
        have hrhs : natChars n = natCharsGo n n := rfl
        rw [hrhs]
        cases hne : n with
        | zero => omega
        | succ m =>
          simp only [natCharsGo]
          rw [if_neg (by omega), if_neg (by omega)]
          congr 1
          rw [ih g (by omega) ((m + 1) / 10) (by omega),
            ih m (by omega) ((m + 1) / 10) (by omega)]

theorem natChars_eq (n : Nat) : natChars n =
    if n < 10 then [Nat.digitChar n]
    else natChars (n / 10) ++ [Nat.digitChar (n % 10)] := by
  by_cases h : n < 10
  · rw [if_pos h]
    exact natCharsGo_small n h n
  · rw [if_neg h]
    cases hne : n with
    | zero => omega
    | succ m =>
      show natCharsGo (m + 1) (m + 1) = _
      simp only [natCharsGo]
      rw [if_neg (by omega)]
      congr 1
      exact natCharsGo_eq m ((m + 1) / 10) (by omega)

theorem mem_natChars (n : Nat) : ∀ c ∈ natChars n, ∃ d, d < 10 ∧ c = Nat.digitChar d := by
  induction n using Nat.strong_induction_on with
  | _ n ih =>
    intro c hc
    rw [natChars_eq] at hc
    split at hc
    · next h => simp only [List.mem_singleton] at hc; exact ⟨n, h, hc⟩
    · next h =>
      rw [List.mem_append] at hc
      rcases hc with hc | hc
      · exact ih (n / 10) (Nat.div_lt_self (by omega) (by decide)) c hc
      · simp only [List.mem_singleton] at hc
        exact ⟨n % 10, Nat.mod_lt _ (by decide), hc⟩

theorem natChars_plain (n : Nat) : ∀ c ∈ natChars n, c ≠ '_' ∧ c ≠ '<' ∧ c ≠ '>' := by
  intro c hc
  obtain ⟨d, hd, rfl⟩ := mem_natChars n c hc
  clear hc
  revert hd; revert d; decide

theorem digVal_digitChar : ∀ d, d < 10 → digVal (Nat.digitChar d) = d := by decide

theorem valOf_natChars : ∀ n, valOf (natChars n) = n := by
  intro n
  induction n using Nat.strong_induction_on with
  | _ n ih =>
    rw [natChars_eq]
    split
    · next h =>
      simp only [valOf, List.foldl_cons, List.foldl_nil]
      rw [digVal_digitChar n h]
      omega
    · next h =>
      rw [valOf, List.foldl_append]
      have h1 : List.foldl (fun a c => 10 * a + digVal c) 0 (natChars (n / 10)) = n / 10 :=
        ih (n / 10) (Nat.div_lt_self (by omega) (by decide))
      rw [h1]
      simp only [List.foldl_cons, List.foldl_nil]
      rw [digVal_digitChar _ (Nat.mod_lt _ (by decide))]
      omega

theorem natChars_inj {a b : Nat} (h : natChars a = natChars b) : a = b := by
  have ha := valOf_natChars a
  rw [h, valOf_natChars b] at ha
  omega

/-- Splitting a list at an occurrence of `c` that has no `c` before it is
unambiguous. -/
theorem firstSep {c : Char} : ∀ (a a' b b' : List Char),
    a ++ c :: b = a' ++ c :: b' → c ∉ a → c ∉ a' → a = a' ∧ b = b' := by
  intro a
  induction a with
  | nil =>
    intro a' b b' h _ ha'
    cases a' with
    | nil =>
      simp only [List.nil_append, List.cons.injEq] at h
      exact ⟨rfl, h.2⟩
    | cons x xs =>
      simp only [List.nil_append, List.cons_append, List.cons.injEq] at h
      exact absurd (h.1 ▸ List.mem_cons_self x xs) (h.1 ▸ ha')
  | cons x xs ih =>
    intro a' b b' h ha ha'
    cases a' with
    | nil =>
      simp only [List.cons_append, List.nil_append, List.cons.injEq] at h
      exact absurd (h.1 ▸ List.mem_cons_self x xs) (fun hm => ha (h.1 ▸ hm))
    | cons y ys =>
      simp only [List.cons_append, List.cons.injEq] at h
      obtain ⟨rfl, h2⟩ := h
      have := ih ys b b' h2 (fun hm => ha (List.mem_cons_of_mem _ hm))
        (fun hm => ha' (List.mem_cons_of_mem _ hm))
      exact ⟨by rw [this.1], this.2⟩

/-- Splitting a list at an occurrence of `c` that has no `c` after it is
unambiguous. -/
theorem lastSep {c : Char} : ∀ (a a' b b' : List Char),
    a ++ c :: b = a' ++ c :: b' → c ∉ b → c ∉ b' → a = a' ∧ b = b' := by
  intro a
  induction a with
  | nil =>
    intro a' b b' h hb _
    cases a' with
    | nil =>
      simp only [List.nil_append, List.cons.injEq] at h
      exact ⟨rfl, h.2⟩
    | cons x xs =>
      simp only [List.nil_append, List.cons_append, List.cons.injEq] at h
      have : c ∈ b := by
        rw [h.2]
        exact List.mem_append_right xs (List.mem_cons_self c b')
      exact absurd this hb
  | cons x xs ih =>
    intro a' b b' h hb hb'
    cases a' with
    | nil =>
      simp only [List.cons_append, List.nil_append, List.cons.injEq] at h
      have : c ∈ b' := by
        rw [← h.2]
        exact List.mem_append_right xs (List.mem_cons_self c b)
      exact absurd this hb'
    | cons y ys =>
      simp only [List.cons_append, List.cons.injEq] at h
      obtain ⟨rfl, h2⟩ := h
      have := ih ys b b' h2 hb hb'
      exact ⟨by rw [this.1], this.2⟩

/-- Distinct `(entity_type, index)` pairs always yield distinct tokens:
the token envelope is injective. -/
theorem generate_token_inj {t₁ t₂ : Str} {c₁ c₂ : Nat}
    (h : generate_token t₁ c₁ = generate_token t₂ c₂) : t₁ = t₂ ∧ c₁ = c₂ := by
  unfold generate_token at h
  injection h with _ h
  have hnotin : ∀ c : Nat, ('_' : Char) ∉ natChars c ++ ['>'] := by
    intro c hm
    rcases List.mem_append.1 hm with hm | hm
    · exact (natChars_plain c _ hm).1 rfl
    · simp at hm
  have := lastSep t₁ t₂ (natChars c₁ ++ ['>']) (natChars c₂ ++ ['>']) h
    (hnotin c₁) (hnotin c₂)
  refine ⟨this.1, natChars_inj (List.append_cancel_right this.2)⟩

theorem BFree_append {s t : Str} (hs : BFree s) (ht : BFree t) : BFree (s ++ t) := by
  intro c hc
  rcases List.mem_append.1 hc with h | h
  · exact hs c h
  · exact ht c h

theorem BFree_take {s : Str} (hs : BFree s) (n : Nat) : BFree (s.take n) :=
  fun c hc => hs c (List.take_subset n s hc)

theorem BFree_drop {s : Str} (hs : BFree s) (n : Nat) : BFree (s.drop n) :=
  fun c hc => hs c (List.drop_subset n s hc)

theorem TokenShape_generate {t : Str} (ht : BFree t) (c : Nat) :
    TokenShape (generate_token t c) := by
  refine ⟨t ++ '_' :: natChars c, ?_, ?_⟩
  · simp [generate_token]
  · intro ch hch
    rcases List.mem_append.1 hch with h | h
    · exact ht ch h
    · rcases List.mem_cons.1 h with h | h
      · subst h; exact ⟨by decide, by decide⟩
      · have := natChars_plain c ch h
        exact ⟨this.2.1, this.2.2⟩

/-! ### Behaviour of `startsWithL`, `occursIn` and `replaceAll` -/
theorem startsWithL_self_append (t z : Str) : startsWithL t (t ++ z) = true := by
  induction t with
  | nil => rfl
  | cons c p ih => simp [startsWithL, ih]

theorem startsWithL_exists {p s : Str} (h : startsWithL p s = true) :
    ∃ r, s = p ++ r := by
  induction p generalizing s with
  | nil => exact ⟨s, rfl⟩
  | cons c q ih =>
    cases s with
    | nil => simp [startsWithL] at h
    | cons d s' =>
      simp only [startsWithL, Bool.and_eq_true, beq_iff_eq] at h
      obtain ⟨rfl, h2⟩ := h
      obtain ⟨r, rfl⟩ := ih h2
      exact ⟨r, rfl⟩

theorem startsWithL_cons_ne {c d : Char} {p s : Str} (h : c ≠ d) :
    startsWithL (c :: p) (d :: s) = false := by
  simp [startsWithL, h]

theorem occursIn_of_shape_false {t s : Str} (ht : TokenShape t)
    (hs : ∀ c ∈ s, c ≠ '<') : occursIn t s = false := by
  obtain ⟨w, rfl, -⟩ := ht
  induction s with
  | nil => rfl
  | cons d s' ih =>
    have hd : ('<' : Char) ≠ d := fun h => (hs d (List.mem_cons_self d s')) h.symm
    simp only [occursIn, startsWithL_cons_ne hd, Bool.false_or]
    exact ih fun c hc => hs c (List.mem_cons_of_mem d hc)

theorem occursIn_middle {c : Char} (t' X Y : Str) :
    occursIn (c :: t') (X ++ ((c :: t') ++ Y)) = true := by
  induction X with
  | nil =>
    have h := startsWithL_self_append (c :: t') Y
    simp only [List.cons_append] at h
    simp only [List.nil_append, List.cons_append, occursIn]
    show (startsWithL (c :: t') (c :: (t' ++ Y)) || occursIn (c :: t') (t' ++ Y)) = true
    rw [h, Bool.true_or]
  | cons x X' ih =>
    simp only [List.cons_append] at ih ⊢
    simp only [occursIn, ih, Bool.or_true]

theorem replaceAllGo_eq : ∀ (f : Nat) (old new s : Str), s.length ≤ f →
    replaceAllGo old new f s = replaceAll old new s := by
  intro f
  induction f using Nat.strong_induction_on with
  | _ f ih =>
    intro old new s hf
    cases s with
    | nil => cases f <;> rfl
    | cons c rest =>
      cases f with
      | zero => simp at hf
      | succ g =>
        have hg : rest.length ≤ g := by
          simp only [List.length_cons] at hf
          omega
        have hrhs : replaceAll old new (c :: rest) =
            replaceAllGo old new (rest.length + 1) (c :: rest) := rfl
        rw [hrhs]
        simp only [replaceAllGo]
        by_cases hc : old ≠ [] ∧ startsWithL old (c :: rest) = true
        · rw [if_pos hc, if_pos hc]
          congr 1
          have hold : old.length ≥ 1 := by
            cases holdEq : old with
            | nil => exact absurd holdEq hc.1
            | cons x xs => simp
          have hlen : ((c :: rest).drop old.length).length ≤ rest.length := by
            simp only [List.length_drop, List.length_cons]
            omega
          rw [ih g (Nat.lt_succ_self g) old new _ (le_trans hlen hg),
            ih rest.length (by omega) old new _ hlen]
        · rw [if_neg hc, if_neg hc]
          congr 1
          rw [ih g (Nat.lt_succ_self g) old new rest hg]
          rfl

theorem replaceAll_nil (old new : Str) : replaceAll old new [] = [] := rfl

theorem replaceAll_cons_neg {old : Str} {c : Char} {rest : Str}
    (h : ¬(old ≠ [] ∧ startsWithL old (c :: rest) = true)) (new : Str) :
    replaceAll old new (c :: rest) = c :: replaceAll old new rest := by
  have hl : replaceAll old new (c :: rest) =
      replaceAllGo old new (rest.length + 1) (c :: rest) := rfl
  rw [hl]
  simp only [replaceAllGo]
  rw [if_neg h]
  rfl

theorem replaceAll_cons_pos {old : Str} {c : Char} {rest : Str}
    (h1 : old ≠ []) (h2 : startsWithL old (c :: rest) = true) (new : Str) :
    replaceAll old new (c :: rest) =
      new ++ replaceAll old new ((c :: rest).drop old.length) := by
  have hl : replaceAll old new (c :: rest) =
      replaceAllGo old new (rest.length + 1) (c :: rest) := rfl
  rw [hl]
  simp only [replaceAllGo]
  rw [if_pos ⟨h1, h2⟩]
  congr 1
  apply replaceAllGo_eq
  have hold : old.length ≥ 1 := by
    cases holdEq : old with
    | nil => exact absurd holdEq h1
    | cons x xs => simp
  simp only [List.length_drop, List.length_cons]
  omega

theorem replaceAll_of_occursIn_false {t v s : Str} (h : occursIn t s = false) :
    replaceAll t v s = s := by
  induction s with
  | nil => exact replaceAll_nil t v
  | cons c rest ih =>
    simp only [occursIn, Bool.or_eq_false_iff] at h
    rw [replaceAll_cons_neg (fun hc => by rw [hc.2] at h; exact absurd h.1 (by simp)) v,
      ih h.2]

theorem replaceAll_append_of_lt_free {t' v P Q : Str}
    (hP : ∀ c ∈ P, c ≠ '<') :
    replaceAll ('<' :: t') v (P ++ Q) = P ++ replaceAll ('<' :: t') v Q := by
  induction P with
  | nil => rfl
  | cons p P' ih =>
    have hp : ('<' : Char) ≠ p := fun h => (hP p (List.mem_cons_self p P')) h.symm
    rw [List.cons_append,
      replaceAll_cons_neg (fun hc => by
        rw [startsWithL_cons_ne hp] at hc
        exact absurd hc.2 (by simp)) v,
      ih fun c hc => hP c (List.mem_cons_of_mem p hc)]
    rfl

theorem startsWithL_token_token_false {t u : Str} (Q : Str) (ht : TokenShape t)
    (hu : TokenShape u) (hne : t ≠ u) : startsWithL t (u ++ Q) = false := by
  obtain ⟨tw, rfl, htw⟩ := ht
  obtain ⟨uw, rfl, huw⟩ := hu
  by_contra hsw
  rw [Bool.not_eq_false] at hsw
  obtain ⟨r, hr⟩ := startsWithL_exists hsw
  simp only [List.cons_append, List.cons.injEq] at hr
  have hr2 : uw ++ '>' :: Q = tw ++ '>' :: r := by
    have := hr.2
    rwa [List.append_assoc, List.append_assoc, List.singleton_append,
      List.singleton_append] at this
  have h1 : ('>' : Char) ∉ uw := fun hm => (huw _ hm).2 rfl
  have h2 : ('>' : Char) ∉ tw := fun hm => (htw _ hm).2 rfl
  have := firstSep uw tw Q r hr2 h1 h2
  exact hne (by rw [this.1])

theorem occursIn_token_bfree {u B : Str} (hu : TokenShape u) (hB : BFree B) :
    occursIn u B = false :=
  occursIn_of_shape_false hu (fun c hc => (hB c hc).1)

theorem replaceAll_bfree_skip {t v : Str} (ht : TokenShape t) (P Q : Str)
    (hP : ∀ c ∈ P, c ≠ '<') : replaceAll t v (P ++ Q) = P ++ replaceAll t v Q := by
  obtain ⟨w, rfl, -⟩ := ht
  exact replaceAll_append_of_lt_free hP

theorem replaceAll_token_skip {t u v Q : Str} (ht : TokenShape t) (hu : TokenShape u)
    (hne : t ≠ u) : replaceAll t v (u ++ Q) = u ++ replaceAll t v Q := by
  have hfalse := startsWithL_token_token_false Q ht hu hne
  obtain ⟨uw, huEq, huw⟩ := hu
  subst huEq
  simp only [List.cons_append] at hfalse ⊢
  rw [replaceAll_cons_neg (fun hc => by rw [hfalse] at hc; exact absurd hc.2 (by simp)) v]
  rw [replaceAll_bfree_skip ht (uw ++ ['>']) Q (fun c hc => ?_)]
  rcases List.mem_append.1 hc with h | h
  · exact (huw c h).1
  · simp only [List.mem_singleton] at h
    subst h; decide

theorem replaceAll_self_append {t v B : Str} (hne : t ≠ []) :
    replaceAll t v (t ++ B) = v ++ replaceAll t v B := by
  cases t with
  | nil => exact absurd rfl hne
  | cons c rest =>
    have hsw : startsWithL (c :: rest) ((c :: rest) ++ B) = true :=
      startsWithL_self_append (c :: rest) B
    simp only [List.cons_append] at hsw ⊢
    rw [replaceAll_cons_pos (by simp) hsw v]
    congr 1
    rw [show (c :: (rest ++ B)).drop (c :: rest).length = B from
      List.drop_left (c :: rest) B]

theorem DescOK_shapes : ∀ (ps : List (Entity × Str)) (T : Str), DescOK T ps →
    ∀ p ∈ ps, TokenShape p.2 := by
  intro ps
  induction ps with
  | nil => intro T _ p hp; simp at hp
  | cons hd tl ih =>
    obtain ⟨e, u⟩ := hd
    intro T h p hp
    rcases List.mem_cons.1 hp with rfl | hp
    · exact h.2.2.2.1
    · exact ih (T.take e.start) h.2.2.2.2.2 p hp

theorem replaceAll_descAssemble {t v : Str} (ht : TokenShape t) :
    ∀ (ps : List (Entity × Str)) (T S : Str), BFree T →
      (∀ p ∈ ps, TokenShape p.2 ∧ p.2 ≠ t) →
      replaceAll t v (descAssemble T ps ++ S) = descAssemble T ps ++ replaceAll t v S := by
  intro ps
  induction ps with
  | nil =>
    intro T S hT _
    exact replaceAll_bfree_skip ht T S (fun c hc => (hT c hc).1)
  | cons hd tl ih =>
    obtain ⟨e, u⟩ := hd
    intro T S hT hps
    have hu := hps (e, u) (List.mem_cons_self _ _)
    simp only [descAssemble, List.append_assoc]
    rw [ih (T.take e.start) (u ++ (T.drop e.stop ++ S)) (BFree_take hT _)
      (fun p hp => hps p (List.mem_cons_of_mem _ hp))]
    rw [replaceAll_token_skip ht hu.1 (fun h => hu.2 h.symm)]
    rw [replaceAll_bfree_skip ht (T.drop e.stop) S
      (fun c hc => ((BFree_drop hT e.stop) c hc).1)]

theorem slice_glue {T : Str} {s t : Nat} (h : s ≤ t) :
    (T.drop s).take (t - s) ++ T.drop t = T.drop s := by
  have h2 : T.drop t = (T.drop s).drop (t - s) := by
    rw [List.drop_drop]
    congr 1
    omega
  rw [h2, List.take_append_drop]

/-- Restoring a well-formed masked text token by token, in the order the
token map was built (outermost entity first), yields the original text
back and counts one restoration per token. -/
theorem demaskLoop_restores :
    ∀ (ps : List (Entity × Str)) (T X : Str) (n : Nat), DescOK T ps → BFree T → BFree X →
      demaskLoop (tokenPairsMap ps) (descAssemble T ps ++ X) n = (T ++ X, n + ps.length) := by
  intro ps
  induction ps with
  | nil =>
    intro T X n _ _ _
    simp [tokenPairsMap, descAssemble, demaskLoop]
  | cons hd tl ih =>
    obtain ⟨e, u⟩ := hd
    intro T X n hOK hT hX
    obtain ⟨hlt, hle, htext, hshape, hnot, hrest⟩ := hOK
    have hshapes := DescOK_shapes tl (T.take e.start) hrest
    obtain ⟨w, huEq, hw⟩ := hshape
    have htext' : descAssemble T ((e, u) :: tl) ++ X =
        descAssemble (T.take e.start) tl ++ (u ++ (T.drop e.stop ++ X)) := by
      simp [descAssemble, List.append_assoc]
    have hocc : occursIn u (descAssemble T ((e, u) :: tl) ++ X) = true := by
      rw [htext', huEq]
      exact occursIn_middle (w ++ ['>']) (descAssemble (T.take e.start) tl) (T.drop e.stop ++ X)
    simp only [tokenPairsMap, demaskLoop, hocc, if_pos]
    have hrepl : replaceAll u e.text (descAssemble T ((e, u) :: tl) ++ X) =
        descAssemble (T.take e.start) tl ++ (T.drop e.start ++ X) := by
      rw [htext']
      rw [replaceAll_descAssemble ⟨w, huEq, hw⟩ tl (T.take e.start)
        (u ++ (T.drop e.stop ++ X)) (BFree_take hT _)
        (fun p hp => ⟨hshapes p hp, hnot p hp⟩)]
      rw [replaceAll_self_append (by rw [huEq]; simp)]
      rw [replaceAll_of_occursIn_false (occursIn_token_bfree ⟨w, huEq, hw⟩
        (BFree_append (BFree_drop hT e.stop) hX))]
      have hglue : e.text ++ (T.drop e.stop ++ X) = T.drop e.start ++ X := by
        rw [htext, ← List.append_assoc, slice_glue (Nat.le_of_lt hlt)]
      rw [hglue]
    rw [hrepl]
    rw [ih (T.take e.start) (T.drop e.start ++ X) (n + 1) hrest (BFree_take hT _)
      (BFree_append (BFree_drop hT e.start) hX)]
    rw [← List.append_assoc, List.take_append_drop]
    simp only [List.length_cons]
    congr 1
    omega

theorem maskLoop_decompose : ∀ (l : List Entity) (text : Str) (counts : Str → Nat) (tm),
    maskLoop l text counts tm =
      (spliceAll (assignTokens l counts) text, tmFold (assignTokens l counts) tm) := by
  intro l
  induction l with
  | nil => intro text counts tm; rfl
  | cons e rest ih =>
    intro text counts tm
    simp only [maskLoop, assignTokens, spliceAll, tmFold]
    exact ih _ _ _

/-- Every token handed out by the loop for an entity carries an index
strictly above the entry counter of that entity's type. -/
theorem assignTokens_spec : ∀ (l : List Entity) (counts : Str → Nat),
    ∀ p ∈ assignTokens l counts, ∃ c, counts p.1.entity_type < c ∧
      p.2 = generate_token p.1.entity_type c := by
  intro l
  induction l with
  | nil => intro counts p hp; simp [assignTokens] at hp
  | cons e rest ih =>
    intro counts p hp
    rcases List.mem_cons.1 hp with rfl | hp
    · exact ⟨counts e.entity_type + 1, Nat.lt_succ_self _, rfl⟩
    · obtain ⟨c, hc, hgen⟩ := ih _ p hp
      refine ⟨c, lt_of_le_of_lt ?_ hc, hgen⟩
      by_cases h : p.1.entity_type = e.entity_type
      · simp [h]
      · simp [h]

/-- No token handed out by the loop equals a token whose index is at or
below the entry counter of its type. -/
theorem assignTokens_fresh : ∀ (l : List Entity) (counts : Str → Nat),
    ∀ p ∈ assignTokens l counts, ∀ t c, c ≤ counts t →
      p.2 ≠ generate_token t c := by
  intro l counts p hp t c hc heq
  obtain ⟨c', hc', hgen⟩ := assignTokens_spec l counts p hp
  rw [hgen] at heq
  obtain ⟨rfl, rfl⟩ := generate_token_inj heq
  omega

/-- All tokens generated within one replacement loop are pairwise
distinct. -/
theorem assignTokens_nodup : ∀ (l : List Entity) (counts : Str → Nat),
    ((assignTokens l counts).map (fun p => p.2)).Nodup := by
  intro l
  induction l with
  | nil => intro counts; simp [assignTokens]
  | cons e rest ih =>
    intro counts
    simp only [assignTokens, List.map_cons, List.nodup_cons]
    refine ⟨?_, ih _⟩
    intro hmem
    obtain ⟨p, hp, hpe⟩ := List.mem_map.1 hmem
    exact assignTokens_fresh rest _ p hp e.entity_type (counts e.entity_type + 1)
      (by simp) hpe

theorem dictInsert_append_of_fresh {V : Type} (m : List (Str × V)) (k : Str) (v : V)
    (h : ∀ p ∈ m, p.1 ≠ k) : dictInsert m k v = m ++ [(k, v)] := by
  unfold dictInsert
  rw [if_neg]
  intro hany
  rw [List.any_eq_true] at hany
  obtain ⟨p, hp, hpk⟩ := hany
  exact h p hp (by simpa using hpk)

theorem tmFold_eq_pairs : ∀ (ps : List (Entity × Str)) (tm : List (Str × Str)),
    ((ps.map (fun p => p.2)).Nodup) → (∀ p ∈ ps, ∀ q ∈ tm, q.1 ≠ p.2) →
    tmFold ps tm = tm ++ tokenPairsMap ps := by
  intro ps
  induction ps with
  | nil => intro tm _ _; simp [tmFold, tokenPairsMap]
  | cons hd tl ih =>
    obtain ⟨e, u⟩ := hd
    intro tm hnodup hdisj
    simp only [List.map_cons, List.nodup_cons] at hnodup
    simp only [tmFold]
    rw [dictInsert_append_of_fresh tm u e.text
      (fun p hp => hdisj (e, u) (List.mem_cons_self _ _) p hp)]
    rw [ih (tm ++ [(u, e.text)]) hnodup.2 ?_]
    · simp [tokenPairsMap]
    · intro p hp q hq
      rcases List.mem_append.1 hq with hq | hq
      · exact hdisj p (List.mem_cons_of_mem _ hp) q hq
      · simp only [List.mem_singleton] at hq
        subst hq
        intro hqe
        simp only at hqe
        exact hnodup.1 (by rw [hqe]; exact List.mem_map.2 ⟨p, hp, rfl⟩)

/-! ### From the splicing loop to the assembled shape -/
theorem DescOK_append : ∀ (ps : List (Entity × Str)) (A B : Str),
    DescOK A ps → DescOK (A ++ B) ps := by
  intro ps
  induction ps with
  | nil => intro A B _; trivial
  | cons hd tl ih =>
    obtain ⟨e, u⟩ := hd
    intro A B h
    obtain ⟨hlt, hle, htext, hshape, hnot, hrest⟩ := h
    refine ⟨hlt, by simp only [List.length_append]; omega, ?_, hshape, hnot, ?_⟩
    · rw [htext, List.drop_append_of_le_length (by omega),
        List.take_append_of_le_length (by simp; omega)]
    · rw [List.take_append_of_le_length (by omega)]
      exact hrest

theorem spliceAll_frame : ∀ (ps : List (Entity × Str)) (Y X : Str),
    DescOK Y ps → spliceAll ps (Y ++ X) = spliceAll ps Y ++ X := by
  intro ps
  induction ps with
  | nil => intro Y X _; rfl
  | cons hd tl ih =>
    obtain ⟨e, u⟩ := hd
    intro Y X h
    obtain ⟨hlt, hle, _, _, _, hrest⟩ := h
    simp only [spliceAll]
    rw [List.take_append_of_le_length (by omega),
      List.drop_append_of_le_length hle]
    have h1 : Y.take e.start ++ u ++ (Y.drop e.stop ++ X) =
        (Y.take e.start ++ (u ++ Y.drop e.stop)) ++ X := by
      simp [List.append_assoc]
    rw [h1, ih _ X (DescOK_append tl _ _ hrest)]
    congr 2
    simp [List.append_assoc]

theorem spliceAll_eq_descAssemble : ∀ (ps : List (Entity × Str)) (T : Str),
    DescOK T ps → spliceAll ps T = descAssemble T ps := by
  intro ps
  induction ps with
  | nil => intro T _; rfl
  | cons hd tl ih =>
    obtain ⟨e, u⟩ := hd
    intro T h
    obtain ⟨hlt, hle, _, _, _, hrest⟩ := h
    simp only [spliceAll, descAssemble]
    have h1 : T.take e.start ++ u ++ T.drop e.stop =
        T.take e.start ++ (u ++ T.drop e.stop) := by simp [List.append_assoc]
    rw [h1, spliceAll_frame tl _ _ hrest, ih _ hrest]
    simp [List.append_assoc]

/-! ### Sorting facts -/
theorem insertSorted_perm (le : Entity → Entity → Bool) (a : Entity) :
    ∀ l, List.Perm (insertSorted le a l) (a :: l) := by
  intro l
  induction l with
  | nil => rfl
  | cons b l ih =>
    simp only [insertSorted]
    split
    · rfl
    · exact ((ih.cons b).trans (List.Perm.swap a b l))

theorem sortByLe_perm (le : Entity → Entity → Bool) :
    ∀ l, List.Perm (sortByLe le l) l := by
  intro l
  induction l with
  | nil => rfl
  | cons a l ih =>
    exact (insertSorted_perm le a (sortByLe le l)).trans (ih.cons a)

theorem mem_insertSorted {le : Entity → Entity → Bool} {a x : Entity} {l : List Entity} :
    x ∈ insertSorted le a l ↔ x = a ∨ x ∈ l := by
  constructor
  · intro h
    have h2 := (insertSorted_perm le a l).subset h
    rcases List.mem_cons.1 h2 with h2 | h2
    · exact Or.inl h2
    · exact Or.inr h2
  · intro h
    apply (insertSorted_perm le a l).symm.subset
    rcases h with rfl | h
    · exact List.mem_cons_self _ _
    · exact List.mem_cons_of_mem _ h

theorem insertSorted_pairwise {le : Entity → Entity → Bool}
    (htotal : ∀ a b, le a b = true ∨ le b a = true)
    (htrans : ∀ a b c, le a b = true → le b c = true → le a c = true)
    {a : Entity} {l : List Entity} (hl : l.Pairwise (fun x y => le x y = true)) :
    (insertSorted le a l).Pairwise (fun x y => le x y = true) := by
  induction l with
  | nil => simp [insertSorted]
  | cons b l ih =>
    rcases List.pairwise_cons.1 hl with ⟨hb, hl'⟩
    simp only [insertSorted]
    split
    · next hab =>
      refine List.pairwise_cons.2 ⟨?_, hl⟩
      intro x hx
      rcases List.mem_cons.1 hx with rfl | hx
      · exact hab
      · exact htrans a b x hab (hb x hx)
    · next hab =>
      have hba : le b a = true := by
        rcases htotal a b with h | h
        · exact absurd h hab
        · exact h
      refine List.pairwise_cons.2 ⟨?_, ih hl'⟩
      intro x hx
      rcases mem_insertSorted.1 hx with rfl | hx
      · exact hba
      · exact hb x hx

theorem sortByLe_pairwise {le : Entity → Entity → Bool}
    (htotal : ∀ a b, le a b = true ∨ le b a = true)
    (htrans : ∀ a b c, le a b = true → le b c = true → le a c = true) :
    ∀ l, (sortByLe le l).Pairwise (fun x y => le x y = true) := by
  intro l
  induction l with
  | nil => simp [sortByLe]
  | cons a l ih => exact insertSorted_pairwise htotal htrans ih

theorem DescOK_of_sorted : ∀ (l : List Entity) (T : Str) (counts : Str → Nat),
    (∀ e ∈ l, ValidIn T e) → l.Pairwise (fun a b => b.stop ≤ a.start) →
    DescOK T (assignTokens l counts) := by
  intro l
  induction l with
  | nil => intro T counts _ _; trivial
  | cons e rest ih =>
    intro T counts hval hpair
    obtain ⟨h1, h2, h3, h4⟩ := hval e (List.mem_cons_self _ _)
    rcases List.pairwise_cons.1 hpair with ⟨hhd, htl⟩
    refine ⟨h1, h2, h3, TokenShape_generate h4 _, ?_, ?_⟩
    · intro p hp
      exact assignTokens_fresh rest _ p hp e.entity_type (counts e.entity_type + 1)
        (by simp)
    · apply ih (T.take e.start) _ ?_ htl
      intro e' he'
      obtain ⟨g1, g2, g3, g4⟩ := hval e' (List.mem_cons_of_mem _ he')
      have hstop : e'.stop ≤ e.start := hhd e' he'
      refine ⟨g1, ?_, ?_, g4⟩
      · simp only [List.length_take]
        omega
      · rw [g3, List.drop_take, List.take_take]
        congr 1
        omega

/-- After sorting by descending start, a separated list of valid spans is
pairwise strictly ordered: each later span ends before the current span
begins. -/
theorem sorted_desc_sep {l : List Entity}
    (hval : ∀ e ∈ l, e.start < e.stop) (hsep : Separated l) :
    (sortByLe descStart l).Pairwise (fun a b => b.stop ≤ a.start) := by
  have hperm := sortByLe_perm descStart l
  have hsorted : (sortByLe descStart l).Pairwise (fun a b => descStart a b = true) := by
    apply sortByLe_pairwise
    · intro a b
      unfold descStart
      rcases Nat.le_total b.start a.start with h | h
      · exact Or.inl (by simpa using h)
      · exact Or.inr (by simpa using h)
    · intro a b c hab hbc
      unfold descStart at *
      simp only [decide_eq_true_eq] at *
      omega
  have hsep' : (sortByLe descStart l).Pairwise
      (fun a b => a.stop ≤ b.start ∨ b.stop ≤ a.start) :=
    hsep.perm hperm.symm (fun hxy => hxy.symm)
  have hcomb := hsorted.and hsep'
  apply hcomb.imp_of_mem
  intro a b ha _ h
  have hstart : b.start ≤ a.start := by
    have := h.1
    unfold descStart at this
    simpa using this
  have halt : a.start < a.stop := hval a (hperm.subset ha)
  rcases h.2 with h2 | h2
  · omega
  · exact h2

/-! ### Session dict lemmas -/
theorem sessGet_none_iff {st : Sessions} {sid : Nat} :
    sessGet st sid = none ↔ ∀ p ∈ st, ¬(p.1 == sid) := by
  unfold sessGet
  rw [Option.map_eq_none']
  exact List.find?_eq_none

theorem sessInsert_of_fresh (st : Sessions) (sid : Nat) (tm : List (Str × Str))
    (h : sessGet st sid = none) : sessInsert st sid tm = st ++ [(sid, tm)] := by
  unfold sessInsert
  rw [if_neg]
  intro hany
  rw [List.any_eq_true] at hany
  obtain ⟨p, hp, hpk⟩ := hany
  exact (sessGet_none_iff.1 h) p hp hpk

theorem sessGet_append_single_self (st : Sessions) (sid : Nat) (tm : List (Str × Str))
    (h : sessGet st sid = none) : sessGet (st ++ [(sid, tm)]) sid = some tm := by
  unfold sessGet
  rw [List.find?_append]
  have h1 : st.find? (fun p => p.1 == sid) = none := by
    rw [List.find?_eq_none]
    exact sessGet_none_iff.1 h
  rw [h1]
  simp [List.find?]

theorem sessGet_append_single_ne (st : Sessions) (sid sid' : Nat) (tm : List (Str × Str))
    (h : sid' ≠ sid) : sessGet (st ++ [(sid, tm)]) sid' = sessGet st sid' := by
  unfold sessGet
  rw [List.find?_append]
  have h1 : List.find? (fun p => p.1 == sid') [(sid, tm)] = none := by
    have hb : (sid == sid') = false := by
      simp only [beq_eq_false_iff_ne, ne_eq]
      exact Ne.symm h
    simp [List.find?, hb]
  rw [h1]
  cases hf : st.find? (fun p => p.1 == sid') <;> simp

theorem sessGet_sessInsert_self (st : Sessions) (sid : Nat) (tm : List (Str × Str)) :
    sessGet (sessInsert st sid tm) sid = some tm := by
  unfold sessInsert
  split
  · next hany =>
    induction st with
    | nil => simp at hany
    | cons p st' ih =>
      simp only [List.map_cons]
      by_cases hp : p.1 == sid
      · unfold sessGet
        rw [if_pos hp]
        simp [List.find?]
      · rw [if_neg hp]
        unfold sessGet
        rw [List.find?_cons_of_neg _ (by simpa using hp)]
        apply ih
        simp only [List.any_cons, hp, Bool.false_or] at hany
        exact hany
  · next hany =>
    apply sessGet_append_single_self
    rw [sessGet_none_iff]
    intro p hp hpk
    exact hany (List.any_eq_true.2 ⟨p, hp, hpk⟩)

/-! ### Characterization of `mask` and the round trip -/
theorem assignTokens_length : ∀ (l : List Entity) (counts : Str → Nat),
    (assignTokens l counts).length = l.length := by
  intro l
  induction l with
  | nil => intro counts; rfl
  | cons e rest ih => intro counts; simp [assignTokens, ih]

theorem tmFold_nil (ps : List (Entity × Str)) (h : ((ps.map (fun p => p.2)).Nodup)) :
    tmFold ps [] = tokenPairsMap ps := by
  rw [tmFold_eq_pairs ps [] h (fun p hp q hq => by simp at hq)]
  simp

theorem mask_eq (st : Sessions) (sid : Nat) (T : Str) (detected : List Entity)
    (em : Option (List Str)) :
    mask st sid T detected em =
      (sessInsert st sid
        (tmFold (assignTokens (sortByLe descStart (pyFilterEntities detected em))
          (fun _ => 0)) []),
       ⟨spliceAll (assignTokens (sortByLe descStart (pyFilterEntities detected em))
          (fun _ => 0)) T,
        tmFold (assignTokens (sortByLe descStart (pyFilterEntities detected em))
          (fun _ => 0)) [],
        sortByLe descStart (pyFilterEntities detected em), sid⟩) := by
  simp only [mask, maskLoop_decompose]

theorem pyFilterEntities_sublist (detected : List Entity) (em : Option (List Str)) :
    List.Sublist (pyFilterEntities detected em) detected := by
  cases em with
  | none => exact List.Sublist.refl _
  | some l =>
    simp only [pyFilterEntities]
    by_cases hl : l = []
    · rw [if_pos hl]
    · rw [if_neg hl]
      exact List.filter_sublist _

/-- Claim C1 (amended): for every text `T` whose characters avoid the token
delimiters, and every detection outcome whose spans are valid, pairwise
non-overlapping, carry the spanned slice as `text` and have delimiter-free
entity types, demasking the masked text with the session id returned by
`mask` restores `T` exactly (and restores one entity per replaced span).
The original claim's precondition — no original value textually equal to
another entity's placeholder — is not sufficient; see the counterexample. -/
theorem C1_roundtrip_amended (st : Sessions) (sid : Nat) (T : Str)
    (detected : List Entity) (em : Option (List Str))
    (hval : ∀ e ∈ detected, ValidIn T e) (hsep : Separated detected) (hT : BFree T) :
    demask (mask st sid T detected em).1 (mask st sid T detected em).2.masked_text
        (some (mask st sid T detected em).2.session_id) none =
      .ok ⟨T, (sortByLe descStart (pyFilterEntities detected em)).length⟩ := by
  have hsub := pyFilterEntities_sublist detected em
  have hvalF : ∀ e ∈ pyFilterEntities detected em, ValidIn T e :=
    fun e he => hval e (hsub.subset he)
  have hsepF : Separated (pyFilterEntities detected em) :=
    List.Pairwise.sublist hsub hsep
  have hvalS : ∀ e ∈ sortByLe descStart (pyFilterEntities detected em), ValidIn T e :=
    fun e he => hvalF e ((sortByLe_perm descStart _).subset he)
  have hdesc := sorted_desc_sep (fun e he => (hvalF e he).1) hsepF
  have hOK := DescOK_of_sorted (sortByLe descStart (pyFilterEntities detected em)) T
    (fun _ => 0) hvalS hdesc
  rw [mask_eq]
  simp only [demask, sessGet_sessInsert_self, Option.getD_some]
  rw [tmFold_nil _ (assignTokens_nodup _ _)]
  rw [spliceAll_eq_descAssemble _ _ hOK]
  have hres := demaskLoop_restores
    (assignTokens (sortByLe descStart (pyFilterEntities detected em)) (fun _ => 0))
    T [] 0 hOK hT (by intro c hc; simp at hc)
  rw [List.append_nil, List.append_nil] at hres
  rw [hres]
  simp only [Nat.zero_add]
  rw [assignTokens_length]

theorem mask_token_map (st : Sessions) (sid : Nat) (T : Str) (detected : List Entity)
    (em : Option (List Str)) :
    (mask st sid T detected em).2.token_map =
      tmFold (assignTokens (sortByLe descStart (pyFilterEntities detected em))
        (fun _ => 0)) [] := by
  rw [mask_eq]

theorem mask_masked_text (st : Sessions) (sid : Nat) (T : Str) (detected : List Entity)
    (em : Option (List Str)) :
    (mask st sid T detected em).2.masked_text =
      spliceAll (assignTokens (sortByLe descStart (pyFilterEntities detected em))
        (fun _ => 0)) T := by
  rw [mask_eq]

theorem mask_entities_found (st : Sessions) (sid : Nat) (T : Str) (detected : List Entity)
    (em : Option (List Str)) :
    (mask st sid T detected em).2.entities_found =
      sortByLe descStart (pyFilterEntities detected em) := by
  rw [mask_eq]

theorem mask_sessions (st : Sessions) (sid : Nat) (T : Str) (detected : List Entity)
    (em : Option (List Str)) :
    (mask st sid T detected em).1 =
      sessInsert st sid (mask st sid T detected em).2.token_map := by
  rw [mask_eq]

theorem tokenPairsMap_keys : ∀ ps : List (Entity × Str),
    (tokenPairsMap ps).map (fun p => p.1) = ps.map (fun p => p.2) := by
  intro ps
  induction ps with
  | nil => rfl
  | cons hd tl ih =>
    obtain ⟨e, u⟩ := hd
    simp [tokenPairsMap, ih]

theorem tokenPairsMap_values : ∀ ps : List (Entity × Str),
    (tokenPairsMap ps).map (fun p => p.2) = ps.map (fun p => p.1.text) := by
  intro ps
  induction ps with
  | nil => rfl
  | cons hd tl ih =>
    obtain ⟨e, u⟩ := hd
    simp [tokenPairsMap, ih]

theorem tokenPairsMap_length : ∀ ps : List (Entity × Str),
    (tokenPairsMap ps).length = ps.length := by
  intro ps
  induction ps with
  | nil => rfl
  | cons hd tl ih =>
    obtain ⟨e, u⟩ := hd
    simp [tokenPairsMap, ih]

theorem assignTokens_texts : ∀ (l : List Entity) (counts : Str → Nat),
    (assignTokens l counts).map (fun p => p.1.text) = l.map (fun e => e.text) := by
  intro l
  induction l with
  | nil => intro counts; rfl
  | cons e rest ih => intro counts; simp [assignTokens, ih]

/-! ### Claim C1 -/
/-- Claim C1, counterexample: a text containing the literal
`<EMAIL_ADDRESS_1>` next to a real email `a@b.c`.  The detection outcome is
a single valid, non-overlapping span, and the claim's stated precondition
holds (no original value textually equals any placeholder token), yet
demasking the masked text with the returned session id yields
`"see a@b.c and a@b.c"`, not the original text: `str.replace` also
rewrites the token literal that was present in the input. -/
theorem C1_counterexample :
    (demask (mask [] 7 c1T [c1E] none).1 (mask [] 7 c1T [c1E] none).2.masked_text
        (some (mask [] 7 c1T [c1E] none).2.session_id) none =
      .ok ⟨"see a@b.c and a@b.c".toList, 1⟩) ∧
    "see a@b.c and a@b.c".toList ≠ c1T ∧
    (∀ q ∈ (mask [] 7 c1T [c1E] none).2.token_map, ∀ e ∈ [c1E], e.text ≠ q.1) ∧
    (∀ e ∈ [c1E], ValidIn c1T e) ∧ Separated [c1E] := by
  decide

/-- Claim C1, witness for the amended round-trip theorem on a concrete
masking call. -/
theorem C1_witness :
    demask (mask [] 5 c1wT [c1wE] none).1 (mask [] 5 c1wT [c1wE] none).2.masked_text
        (some (mask [] 5 c1wT [c1wE] none).2.session_id) none =
      .ok ⟨c1wT, 1⟩ :=
  C1_roundtrip_amended [] 5 c1wT [c1wE] none (by decide) (by decide) (by decide)

/-! ### Claim C2 -/
/-- Claim C2: the deduplicated list can contain two overlapping spans.
On candidates `[0,10)` score `0.99`, `[5,15)` score `0.9`, `[10,20)` score
`0.5` (all with `0 ≤ start < end`), `_deduplicate_entities` keeps both
`[0,10)` and `[5,15)`: when the walk reaches `[10,20)`, the overlap re-scan
against the full list promotes the bridging span `[5,15)` even though it
overlaps the already-kept `[0,10)`.  This contradicts the non-overlap
invariant the specification states for the final entity list. -/
theorem C2_dedup_overlap_bug :
    deduplicate_entities [c2A, c2C, c2B] = [c2A, c2C] ∧
    c2A.start ≤ c2C.start ∧ c2C.start < c2A.stop := by
  decide

/-! ### Claim C3 -/
/-- Claim C3, counterexample: on the specification's own scenario
`"Email alice@example.com and bob@example.com"` with both emails detected,
the token of index 1 maps to `bob@example.com` — the rightmost address —
because `mask` assigns per-type indices while walking the entities in
descending start order.  The claim asserts the leftmost email receives
index 1. -/
theorem C3_counterexample :
    dictGet (mask [] 0 c3T [c3Alice, c3Bob] none).2.token_map
        "<EMAIL_ADDRESS_1>".toList = some "bob@example.com".toList ∧
    dictGet (mask [] 0 c3T [c3Alice, c3Bob] none).2.token_map
        "<EMAIL_ADDRESS_2>".toList = some "alice@example.com".toList ∧
    ("bob@example.com".toList : Str) ≠ "alice@example.com".toList := by
  decide

/-- Claim C3 (amended): within one `mask()` call over two entities of the
same type, per-type indices are assigned in descending start order: the
rightmost entity receives index 1 and the leftmost receives index 2, each
token still mapping to its own entity's original text. -/
theorem C3_index_order_amended (st : Sessions) (sid : Nat) (T : Str) (e1 e2 : Entity)
    (hty : e1.entity_type = e2.entity_type) (hlt : e1.start < e2.start) :
    (mask st sid T [e1, e2] none).2.token_map =
      [(generate_token e2.entity_type 1, e2.text),
       (generate_token e1.entity_type 2, e1.text)] := by
  rw [mask_token_map]
  have hfil : pyFilterEntities [e1, e2] none = [e1, e2] := rfl
  have hd : descStart e1 e2 = false := by
    simp only [descStart, decide_eq_false_iff_not]
    omega
  have hsort : sortByLe descStart [e1, e2] = [e2, e1] := by
    simp [sortByLe, insertSorted, hd]
  have hassign : assignTokens [e2, e1] (fun _ => 0) =
      [(e2, generate_token e2.entity_type 1), (e1, generate_token e1.entity_type 2)] := by
    simp [assignTokens, hty]
  rw [hfil, hsort, hassign]
  have hnodup : (([(e2, generate_token e2.entity_type 1),
      (e1, generate_token e1.entity_type 2)]).map (fun p => p.2)).Nodup := by
    simp only [List.map_cons, List.map_nil, List.nodup_cons, List.mem_singleton,
      List.not_mem_nil, not_false_iff, List.nodup_nil, and_true]
    intro hcontra
    have := generate_token_inj hcontra
    omega
  rw [tmFold_nil _ hnodup]
  rfl

/-- Claim C3, witness: the amended index order instantiated on the
alice/bob scenario. -/
theorem C3_witness :
    (mask [] 0 c3T [c3Alice, c3Bob] none).2.token_map =
      [(generate_token c3Bob.entity_type 1, c3Bob.text),
       (generate_token c3Alice.entity_type 2, c3Alice.text)] :=
  C3_index_order_amended [] 0 c3T c3Alice c3Bob (by decide) (by decide)

/-! ### Claim C4 -/
/-- Claim C4, counterexample: with a detection outcome listing a phone
entity first and two email entities out of order, and
`entities_to_mask = ["EMAIL_ADDRESS"]`, the returned `entities_found` is
the post-filter list sorted by descending start — not the pre-filter,
pre-sort detection list the claim describes. -/
theorem C4_counterexample :
    (mask [] 0 "000 c@d a@b".toList [c4Phone, c4Email1, c4Email2]
        (some ["EMAIL_ADDRESS".toList])).2.entities_found = [c4Email1, c4Email2] ∧
    (mask [] 0 "000 c@d a@b".toList [c4Phone, c4Email1, c4Email2]
        (some ["EMAIL_ADDRESS".toList])).2.entities_found ≠
      [c4Phone, c4Email1, c4Email2] := by
  decide

/-- Claim C4 (amended): `entities_found` is the detection list after the
`entities_to_mask` filter, sorted in place by descending start, and
`masked_text` and the ordered values of `token_map` are computed from
exactly that filtered, sorted list. -/
theorem C4_entities_found_amended (st : Sessions) (sid : Nat) (T : Str)
    (detected : List Entity) (em : Option (List Str)) :
    (mask st sid T detected em).2.entities_found =
      sortByLe descStart (pyFilterEntities detected em) ∧
    (mask st sid T detected em).2.masked_text =
      spliceAll (assignTokens (sortByLe descStart (pyFilterEntities detected em))
        (fun _ => 0)) T ∧
    (mask st sid T detected em).2.token_map.map (fun p => p.2) =
      (sortByLe descStart (pyFilterEntities detected em)).map (fun e => e.text) := by
  refine ⟨mask_entities_found st sid T detected em,
    mask_masked_text st sid T detected em, ?_⟩
  rw [mask_token_map, tmFold_nil _ (assignTokens_nodup _ _), tokenPairsMap_values,
    assignTokens_texts]

/-! ### Claim C5 -/
/-- Claim C5: within one `mask()` call all generated tokens are pairwise
distinct — the token-map keys are nodup and, because no key collision ever
overwrites an earlier binding, the map has exactly one entry per processed
entity, even for entities of equal type or identical matched text. -/
theorem C5_token_uniqueness (st : Sessions) (sid : Nat) (T : Str)
    (detected : List Entity) (em : Option (List Str)) :
    ((mask st sid T detected em).2.token_map.map (fun p => p.1)).Nodup ∧
    (mask st sid T detected em).2.token_map.length =
      (pyFilterEntities detected em).length := by
  constructor
  · rw [mask_token_map, tmFold_nil _ (assignTokens_nodup _ _), tokenPairsMap_keys]
    exact assignTokens_nodup _ _
  · rw [mask_token_map, tmFold_nil _ (assignTokens_nodup _ _), tokenPairsMap_length,
      assignTokens_length]
    exact (sortByLe_perm descStart _).length_eq

/-! ### Claim C6 -/
/-- Claim C6: the demask loop replaces all occurrences of each token key
that occurs in the current text (via `str.replace`), silently skips keys
with no occurrence, and increments `entities_restored` once per matching
key — not once per occurrence.  The closed instance shows a token with two
occurrences: both are replaced while the counter reaches only 1. -/
theorem C6_demask_semantics :
    (∀ (tok v : Str) (rest : List (Str × Str)) (text : Str) (n : Nat),
      occursIn tok text = false →
      demaskLoop ((tok, v) :: rest) text n = demaskLoop rest text n) ∧
    (∀ (tok v : Str) (rest : List (Str × Str)) (text : Str) (n : Nat),
      occursIn tok text = true →
      demaskLoop ((tok, v) :: rest) text n =
        demaskLoop rest (replaceAll tok v text) (n + 1)) ∧
    (demaskLoop [("<X_1>".toList, "v".toList)] "<X_1> and <X_1>".toList 0 =
      ("v and v".toList, 1)) := by
  refine ⟨?_, ?_, by decide⟩
  · intro tok v rest text n h
    simp [demaskLoop, h]
  · intro tok v rest text n h
    simp [demaskLoop, h]

/-- Claim C6, witness: the skip clause applied to a token that does not
occur in the text. -/
theorem C6_witness :
    demaskLoop [("<A_1>".toList, "x".toList)] "hello".toList 0 =
      demaskLoop [] "hello".toList 0 :=
  C6_demask_semantics.1 "<A_1>".toList "x".toList [] "hello".toList 0 (by decide)

/-! ### Claim C10 -/
/-- Claim C10: with a fresh session id (the uuid4 draw), `mask` changes the
session store only by appending the single new binding for that id — every
previously stored session resolves unchanged — while `demask` reads the
store and never modifies it. -/
theorem C10_frame (st : Sessions) (sid : Nat) (T : Str) (detected : List Entity)
    (em : Option (List Str)) (masked : Str) (osid : Option Nat)
    (otm : Option (List (Str × Str))) (hfresh : sessGet st sid = none) :
    (mask st sid T detected em).1 =
      st ++ [(sid, (mask st sid T detected em).2.token_map)] ∧
    sessGet (mask st sid T detected em).1 sid =
      some (mask st sid T detected em).2.token_map ∧
    (∀ j, j ≠ sid → sessGet (mask st sid T detected em).1 j = sessGet st j) ∧
    (demaskOp st masked osid otm).1 = st := by
  refine ⟨?_, ?_, ?_, rfl⟩
  · rw [mask_sessions]
    exact sessInsert_of_fresh st sid _ hfresh
  · rw [mask_sessions]
    exact sessGet_sessInsert_self st sid _
  · intro j hj
    rw [mask_sessions, sessInsert_of_fresh st sid _ hfresh]
    exact sessGet_append_single_ne st sid j _ hj

/-- Claim C10, witness: the frame property on a concrete store holding one
unrelated session. -/
theorem C10_witness :
    (mask [(4, [("<A_1>".toList, "x".toList)])] 9 c1wT [c1wE] none).1 =
      [(4, [("<A_1>".toList, "x".toList)])] ++
        [(9, (mask [(4, [("<A_1>".toList, "x".toList)])] 9 c1wT [c1wE] none).2.token_map)] ∧
    sessGet (mask [(4, [("<A_1>".toList, "x".toList)])] 9 c1wT [c1wE] none).1 9 =
      some (mask [(4, [("<A_1>".toList, "x".toList)])] 9 c1wT [c1wE] none).2.token_map ∧
    (∀ j, j ≠ 9 →
      sessGet (mask [(4, [("<A_1>".toList, "x".toList)])] 9 c1wT [c1wE] none).1 j =
        sessGet [(4, [("<A_1>".toList, "x".toList)])] j) ∧
    (demaskOp [(4, [("<A_1>".toList, "x".toList)])] "hi".toList (some 4) none).1 =
      [(4, [("<A_1>".toList, "x".toList)])] :=
  C10_frame [(4, [("<A_1>".toList, "x".toList)])] 9 c1wT [c1wE] none
    "hi".toList (some 4) none (by decide)

/-! ### Decrypt-loop helper lemmas -/
theorem decryptLoop_cons_some {α : Type} {k : DerivedKey} {rest : List DerivedKey}
    {d x : FBytes α} (h : fernetDecrypt k d = some x) :
    decryptLoop (k :: rest) d = some x := by
  simp [decryptLoop, h]

theorem decryptLoop_cons_none {α : Type} {k : DerivedKey} {rest : List DerivedKey}
    {d : FBytes α} (h : fernetDecrypt k d = none) :
    decryptLoop (k :: rest) d = decryptLoop rest d := by
  simp [decryptLoop, h]

theorem decrypt_eq_loop {α : Type} (e : KDFEncryption) (now : Nat) (d : FBytes α)
    (mkey : String) (hmk : e.master_key = some mkey) :
    e.decrypt now d =
      match decryptLoop (e.attempts mkey now) d with
      | some x => Except.ok x
      | none => Except.error KDFErr.decryptionFailure := by
  simp [KDFEncryption.decrypt, hmk]

theorem attempts_eq_none {e : KDFEncryption} {mkey : String} {now : Nat}
    (hprev : e.master_key_previous = none) :
    e.attempts mkey now =
      [(mkey, e.current_period now), (mkey, e.current_period now - 1)] := by
  simp [KDFEncryption.attempts, hprev]

theorem attempts_eq_some {e : KDFEncryption} {mkey pk : String} {now : Nat}
    (hprev : e.master_key_previous = some pk) :
    e.attempts mkey now =
      [(mkey, e.current_period now), (mkey, e.current_period now - 1),
       (pk, e.current_period now), (pk, e.current_period now - 1)] := by
  simp [KDFEncryption.attempts, hprev]

/-! ### Claim C8 -/
/-- Claim C8: `decrypt` attempts exactly (current secret, current period),
(current secret, previous period), then — only when a previous secret is
configured — (previous secret, current period), (previous secret, previous
period), returning the first attempt that authenticates and raising the
distinct decryption failure when all fail; consequently a ciphertext
produced by `encrypt` at period N still decrypts under the same master
secret once the current period has advanced to N+1. -/
theorem C8_decrypt_order_rotation {α : Type} (e : KDFEncryption) (now : Nat)
    (d b : FBytes α) (mkey : String) (hmk : e.master_key = some mkey) :
    (∀ x, fernetDecrypt (mkey, e.current_period now) d = some x →
      e.decrypt now d = Except.ok x) ∧
    (∀ x, fernetDecrypt (mkey, e.current_period now) d = none →
      fernetDecrypt (mkey, e.current_period now - 1) d = some x →
      e.decrypt now d = Except.ok x) ∧
    (∀ pk x, e.master_key_previous = some pk →
      fernetDecrypt (mkey, e.current_period now) d = none →
      fernetDecrypt (mkey, e.current_period now - 1) d = none →
      fernetDecrypt (pk, e.current_period now) d = some x →
      e.decrypt now d = Except.ok x) ∧
    (∀ pk x, e.master_key_previous = some pk →
      fernetDecrypt (mkey, e.current_period now) d = none →
      fernetDecrypt (mkey, e.current_period now - 1) d = none →
      fernetDecrypt (pk, e.current_period now) d = none →
      fernetDecrypt (pk, e.current_period now - 1) d = some x →
      e.decrypt now d = Except.ok x) ∧
    (e.master_key_previous = none →
      fernetDecrypt (mkey, e.current_period now) d = none →
      fernetDecrypt (mkey, e.current_period now - 1) d = none →
      e.decrypt now d = Except.error KDFErr.decryptionFailure) ∧
    (∀ pk, e.master_key_previous = some pk →
      fernetDecrypt (mkey, e.current_period now) d = none →
      fernetDecrypt (mkey, e.current_period now - 1) d = none →
      fernetDecrypt (pk, e.current_period now) d = none →
      fernetDecrypt (pk, e.current_period now - 1) d = none →
      e.decrypt now d = Except.error KDFErr.decryptionFailure) ∧
    (∀ now2 c, e.current_period now2 = e.current_period now + 1 →
      e.encrypt now b = Except.ok c → e.decrypt now2 c = Except.ok b) := by
  refine ⟨?_, ?_, ?_, ?_, ?_, ?_, ?_⟩
  · intro x h1
    rw [decrypt_eq_loop e now d mkey hmk]
    simp only [KDFEncryption.attempts]
    rw [decryptLoop_cons_some h1]
  · intro x h1 h2
    rw [decrypt_eq_loop e now d mkey hmk]
    simp only [KDFEncryption.attempts]
    rw [decryptLoop_cons_none h1, decryptLoop_cons_some h2]
  · intro pk x hprev h1 h2 h3
    rw [decrypt_eq_loop e now d mkey hmk, attempts_eq_some hprev]
    rw [decryptLoop_cons_none h1, decryptLoop_cons_none h2, decryptLoop_cons_some h3]
  · intro pk x hprev h1 h2 h3 h4
    rw [decrypt_eq_loop e now d mkey hmk, attempts_eq_some hprev]
    rw [decryptLoop_cons_none h1, decryptLoop_cons_none h2, decryptLoop_cons_none h3,
      decryptLoop_cons_some h4]
  · intro hprev h1 h2
    rw [decrypt_eq_loop e now d mkey hmk, attempts_eq_none hprev]
    rw [decryptLoop_cons_none h1, decryptLoop_cons_none h2]
    rfl
  · intro pk hprev h1 h2 h3 h4
    rw [decrypt_eq_loop e now d mkey hmk, attempts_eq_some hprev]
    rw [decryptLoop_cons_none h1, decryptLoop_cons_none h2, decryptLoop_cons_none h3,
      decryptLoop_cons_none h4]
    rfl
  · intro now2 c hper henc
    simp only [KDFEncryption.encrypt, hmk] at henc
    injection henc with henc
    subst henc
    have h1 : fernetDecrypt (mkey, e.current_period now2)
        (FBytes.sealed (mkey, e.current_period now) b) = none := by
      simp only [fernetDecrypt]
      rw [if_neg]
      intro hcontra
      rw [Prod.mk.injEq] at hcontra
      omega
    have h2 : fernetDecrypt (mkey, e.current_period now2 - 1)
        (FBytes.sealed (mkey, e.current_period now) b) = some b := by
      simp only [fernetDecrypt]
      rw [if_pos]
      rw [Prod.mk.injEq]
      exact ⟨rfl, by omega⟩
    rw [decrypt_eq_loop e now2 _ mkey hmk]
    simp only [KDFEncryption.attempts]
    rw [decryptLoop_cons_none h1, decryptLoop_cons_some h2]

/-- Claim C8, witness: a value sealed at period 0 under master secret
`"k"` still decrypts one rotation period later. -/
theorem C8_witness :
    c8E.decrypt 86400 (FBytes.sealed ("k", 0) (FBytes.raw (42 : Nat))) =
      Except.ok (FBytes.raw 42) := by
  have h := (C8_decrypt_order_rotation c8E 0
    (FBytes.raw (42 : Nat)) (FBytes.raw (42 : Nat)) "k" rfl).2.2.2.2.2.2
  exact h 86400 (FBytes.sealed ("k", 0) (FBytes.raw 42)) (by decide) rfl

/-! ### Claim C9 -/
/-- Claim C9, counterexample: a stored session sealed under an unrelated
master secret.  `KDFEncryption.decrypt` raises the distinct decryption
failure, but `get_session` catches it and returns `None` — exactly the
same outcome as looking up a session id that is not stored at all, so the
failure is not surfaced distinctly to get's caller. -/
theorem C9_counterexample :
    get_session c9E 0 c9KV "s1" = none ∧
    get_session c9E 0 c9KV "missing" = none ∧
    get_session c9E 0 c9KV "s1" = get_session c9E 0 c9KV "missing" ∧
    kvGet c9KV "session:s1" ≠ none ∧
    c9E.decrypt 0 (FBytes.sealed ("B", 0) (FBytes.raw ([] : TMn))) =
      Except.error KDFErr.decryptionFailure := by
  decide

/-- Claim C9 (amended): when a stored ciphertext fails to authenticate
under every tried key/period combination, the distinct `DecryptionFailure`
exists only at the `KDFEncryption.decrypt` layer; `get_session` swallows
it and returns `None`, the very outcome it returns for an absent session,
so the two conditions are indistinguishable to its caller. -/
theorem C9_decryption_failure_amended (e : KDFEncryption) (now : Nat) (kv : KVBucket)
    (sid sid' : String) (v : FBytes TMn)
    (hstored : kvGet kv ("session:" ++ sid) = some v)
    (hfail : e.decrypt now v = Except.error KDFErr.decryptionFailure)
    (habsent : kvGet kv ("session:" ++ sid') = none) :
    get_session e now kv sid = none ∧ get_session e now kv sid' = none ∧
    get_session e now kv sid = get_session e now kv sid' := by
  have henabled : e.is_enabled = true := by
    unfold KDFEncryption.decrypt at hfail
    cases hmk : e.master_key with
    | none =>
      rw [hmk] at hfail
      simp at hfail
    | some mkey => simp [KDFEncryption.is_enabled, hmk]
  have h1 : get_session e now kv sid = none := by
    unfold get_session
    rw [hstored]
    simp only [henabled, if_true, hfail]
  have h2 : get_session e now kv sid' = none := by
    unfold get_session
    rw [habsent]
  exact ⟨h1, h2, by rw [h1, h2]⟩

/-- Claim C9, witness: the amended statement instantiated on the concrete
corrupt store. -/
theorem C9_witness :
    get_session c9E 0 c9KV "s1" = none ∧
    get_session c9E 0 c9KV "nope" = none ∧
    get_session c9E 0 c9KV "s1" = get_session c9E 0 c9KV "nope" :=
  C9_decryption_failure_amended c9E 0 c9KV "s1" "nope"
    (FBytes.sealed ("B", 0) (FBytes.raw [])) (by decide) (by decide) (by decide)

/-! ### Claim C7 -/
/-- Claim C7, counterexample: an existing session whose stored token map
is empty (masking a text with no detected entities stores `{}`).  The
session exists — `get_session` returns it — yet `resolve_tokens` answers
with the empty mapping instead of resolving the unknown token to itself,
because `if not token_map` treats the empty map like a missing session. -/
theorem C7_counterexample :
    get_session c7E 0 c7KV "s1" = some [] ∧
    resolve_tokens c7E 0 c7KV "s1" ["<Q_1>"] = [] ∧
    resolve_tokens c7E 0 c7KV "s1" ["<Q_1>"] ≠ [("<Q_1>", "<Q_1>")] := by
  decide

/-- Claim C7 (amended): for a session resolving to a nonempty token map,
`resolve_tokens` maps each requested token to its stored value and each
token absent from the map to itself; for an absent session (and likewise
for an empty stored map) it returns the empty mapping — its only
"not found" signal, which the HTTP layer turns into a 404. -/
theorem C7_resolve_amended (e : KDFEncryption) (now : Nat) (kv : KVBucket)
    (sid : String) (tokens : List String) :
    (∀ tm, get_session e now kv sid = some tm → tm ≠ [] →
      resolve_tokens e now kv sid tokens =
        tokens.map (fun t =>
          (t, ((tm.find? (fun p => p.1 == t)).map (fun p => p.2)).getD t))) ∧
    (get_session e now kv sid = none → resolve_tokens e now kv sid tokens = []) := by
  constructor
  · intro tm hget hne
    unfold resolve_tokens
    rw [hget]
    simp [hne]
  · intro hget
    unfold resolve_tokens
    rw [hget]

/-- Claim C7, witness: pass-through resolution on a concrete session with
one stored token and one unknown token. -/
theorem C7_witness :
    resolve_tokens c7E 0 c7KV2 "s2" ["<A_1>", "<B_9>"] =
      [("<A_1>", "x"), ("<B_9>", "<B_9>")] := by
  rw [(C7_resolve_amended c7E 0 c7KV2 "s2" ["<A_1>", "<B_9>"]).1
    [("<A_1>", "x")] (by decide) (by decide)]
  decide
